import Mathlib

/-!
Verification of the audio signal pipeline of this repository (src/app.py).

The file embeds, as executable Lean definitions, the numeric core of the two
functions the specification describes:

* `enhance_audio` (src/app.py lines 48-85): decode a sound, normalise the
  integer samples to floats, run the external noise reducer, convert back to
  16-bit integers, export, returning a success boolean;
* `plot_enhanced_spectrogram` (src/app.py lines 88-162): channel selection,
  peak normalisation and the fixed frequency-zone table.

Machine integers are modelled as `Int` with explicit wraparound where the
numpy cast can overflow, and the float32 sample domain is modelled by `ℚ`
(every arithmetic operation the code performs on samples is a division or a
multiplication by a power of two, which float32 carries exactly in the value
ranges exercised here).  The noisereduce library call is external to the
repository and is abstracted as a function argument; its input-validation
behaviour, which the repository does not contain, is modelled from the spec
where a claim needs it.
-/

namespace NoiseApp

/-- A decoded PCM sound, mirroring the fields of a pydub `AudioSegment` that
src/app.py reads: the interleaved integer samples returned by
`get_array_of_samples`, the frame rate, the sample width in bytes and the
channel count. -/
structure Sound where
  samples : List Int
  frame_rate : Int
  sample_width : Nat
  channels : Nat
deriving DecidableEq

/-- Truncation of a rational toward zero: the value of the C float-to-int
cast that numpy `astype` performs on an in-range value.  For a normalised
rational, dividing the numerator by the denominator with T-rounding is
exactly truncation toward zero. -/
def truncQ (q : ℚ) : Int := q.num.tdiv q.den

/-- Reduction of an integer into the signed 16-bit range by wraparound,
modelling what the numpy cast `astype(np.int16)` does to an out-of-range
(but 32-bit representable) float on the platforms the app runs on: the
value is truncated and its low 16 bits are reinterpreted as signed. -/
def wrap16 (z : Int) : Int := (z + 32768) % 65536 - 32768

/-- Lines 55-60 of src/app.py, the normalisation step of `enhance_audio`:
a sample width of 2 bytes divides by 32768.0, a width of 4 bytes divides by
2147483648.0, and any other width falls into the bare `else` branch, which
converts the raw integers to float with no scaling at all. -/
def normalizeCode (samples : List Int) (sample_width : Nat) : List ℚ :=
  if sample_width = 2 then samples.map (fun s => (s : ℚ) / 32768)
  else if sample_width = 4 then samples.map (fun s => (s : ℚ) / 2147483648)
  else samples.map (fun s => (s : ℚ))

/-- Line 73 of src/app.py: `(reduced_noise_data * 32768.0).astype(np.int16)`.
Each float sample is scaled by 32768 and cast to a 16-bit integer; the cast
truncates toward zero and wraps around on overflow — the code contains no
clamping. -/
def toInt16Code (xs : List ℚ) : List Int :=
  xs.map (fun x => wrap16 (truncQ (x * 32768)))

/-- Error type of the amplitude normaliser described by the spec. -/
inductive NormError where
  | unsupportedBitDepth
deriving DecidableEq

/-- The `to_float` contract of the spec (§4.2), stated for comparison with
`normalizeCode`: divide by the full-scale magnitude for the given sample
width (2 bytes ↦ 32768, 4 bytes ↦ 2147483648) and fail with
`UnsupportedBitDepthError` on any other width instead of passing raw
integers through. -/
def toFloatSpec (samples : List Int) (sample_width : Nat) :
    Except NormError (List ℚ) :=
  if sample_width = 2 then Except.ok (samples.map (fun s => (s : ℚ) / 32768))
  else if sample_width = 4 then
    Except.ok (samples.map (fun s => (s : ℚ) / 2147483648))
  else Except.error NormError.unsupportedBitDepth

/-- Clamp a rational into the closed interval from `lo` to `hi`. -/
def clampQ (lo hi x : ℚ) : ℚ := max lo (min hi x)

/-- The `to_int` contract of the spec (§4.2), stated for comparison with
`toInt16Code`: scale by the full-scale magnitude, clamp into the
representable 16-bit range, then truncate, so that no overflow wraparound
can occur. -/
def toInt16Spec (xs : List ℚ) : List Int :=
  xs.map (fun x => truncQ (clampQ (-32768) 32767 (x * 32768)))

/-- Line 52 of src/app.py: `enhance_audio` feeds
`np.array(sound.get_array_of_samples())` to the normaliser exactly as
decoded — interleaved across channels, with no channel reduction of any
kind. -/
def samplesForReduction (s : Sound) : List Int := s.samples

/-- Line 96 of src/app.py: `samples.reshape((-1, 2))[:, 0]`, the first
channel of a 2-channel interleaved buffer, i.e. the elements at even
indices.  (A 2-channel buffer always has even length; the single-element
case below is unreachable from the app.) -/
def everyOther : List Int → List Int
  | [] => []
  | [a] => [a]
  | a :: _ :: rest => a :: everyOther rest

/-- Lines 95-96 of src/app.py: the spectrogram loader keeps the samples
as decoded unless the sound has exactly two channels, in which case it
selects the first channel. -/
def monoSamples (s : Sound) : List Int :=
  if s.channels = 2 then everyOther s.samples else s.samples

/-- The first-channel selection of the spec (§4.1), for an interleaved buffer
with `c` channels: keep every `c`-th sample starting from the first. -/
def firstChannelSpec (c : Nat) : List Int → List Int
  | [] => []
  | x :: rest => x :: firstChannelSpec c (rest.drop (c - 1))
termination_by xs => xs.length
decreasing_by
  simp only [List.length_drop, List.length_cons]
  omega

/-- The channel averaging of the spec (§4.1), for an interleaved buffer with `c`
channels: each output sample is the mean of one frame of `c` consecutive
samples. -/
def avgChannelsSpec (c : Nat) (xs : List Int) : List ℚ :=
  if h : c = 0 ∨ xs = [] then []
  else ((xs.take c).map (fun s => (s : ℚ))).sum / (c : ℚ)
    :: avgChannelsSpec c (xs.drop c)
termination_by xs.length
decreasing_by
  push_neg at h
  have hx : 0 < xs.length := List.length_pos.mpr h.2
  simp only [List.length_drop]
  omega

/-- A frequency zone of the spectrogram overlay, as configured on lines
132-137 of src/app.py. -/
structure FrequencyZone where
  low : Nat
  high : Nat
  label : String
  color : String
deriving DecidableEq

/-- Lines 132-137 of src/app.py: the four fixed zones of the overlay.  The
upper bound of the last zone is the constant 22050, not a function of the
sample rate of the sound being plotted. -/
def zones : List FrequencyZone :=
  [ ⟨0, 100, "0-100Hz: Rumble (Noise)", "#8B4513"⟩,
    ⟨100, 1000, "100-1k: Body (Fundamental)", "#228B22"⟩,
    ⟨1000, 4000, "1k-4k: Intelligibility", "#FFD700"⟩,
    ⟨4000, 22050, "4k and up: Air (Sibilance)", "#DC143C"⟩ ]

/-- Adjacency of a zone list: the high bound of every zone equals the low
bound of the next. -/
def zonesChain : List FrequencyZone → Bool
  | [] => true
  | [_] => true
  | a :: b :: rest => (a.high == b.low) && zonesChain (b :: rest)

/-- The partition property the spec asserts (§8, zone coverage): the zone
list is gap-free and overlap-free, starts at 0 and ends at the Nyquist
frequency `sample_rate / 2`. -/
def coversZeroToNyquist (zs : List FrequencyZone) (sample_rate : Nat) : Bool :=
  (zs.head?.map FrequencyZone.low == some 0) &&
  zonesChain zs &&
  (zs.getLast?.map FrequencyZone.high == some (sample_rate / 2))

/-- Line 100 of src/app.py: `np.max(np.abs(samples))`.  For a nonempty
buffer this is the peak absolute sample value; on a zero-size array
`np.max` raises `ValueError`, modelled here as `none`. -/
def maxAbs : List ℚ → Option ℚ
  | [] => none
  | a :: t => some (t.foldl (fun m x => max m |x|) |a|)

/-- Lines 100-102 of src/app.py: compute the peak absolute value — which
raises (`none`) on the empty buffer — then divide every sample by it, but
only when the peak is strictly positive; otherwise the samples are passed
through unchanged. -/
def normalizePeak (xs : List ℚ) : Option (List ℚ) :=
  match maxAbs xs with
  | none => none
  | some m => some (if 0 < m then xs.map (fun x => x / m) else xs)

/-- The float buffer that `plot_enhanced_spectrogram` hands to the
short-time transform: channel selection followed by peak normalisation
(lines 95-102 of src/app.py), `none` when the normalisation raised. -/
def spectrogramSamples (s : Sound) : Option (List ℚ) :=
  normalizePeak ((monoSamples s).map (fun i => (i : ℚ)))

/-- Modelled from the spec: the length of one analysis frame of the noise
reducer.  The reducer itself is the external noisereduce library call on
lines 63-70 of src/app.py, absent from this repository; §4.3 fixes the
frame length as a function of the sample rate, about 25 ms of samples, and
any short-time analysis frame holds at least two samples. -/
def frameLength (sr : Int) : Nat := max 2 (sr.toNat * 25 / 1000)

/-- Error type of the noise-reduction stage described by the spec. -/
inductive SignalError where
  | invalidSignal
deriving DecidableEq

/-- Modelled from the spec: the `nr.reduce_noise` call of src/app.py is the
external noisereduce library, absent from this repository.  Per §4.3 it
fails with `InvalidSignalError` when the signal is shorter than one
analysis frame or the sample rate is not positive, and otherwise produces a
denoised float signal; the spectral-gating computation itself is abstracted
as the function argument `reducer`. -/
def reduceNoiseM (reducer : List ℚ → Int → List ℚ) (y : List ℚ) (sr : Int) :
    Except SignalError (List ℚ) :=
  if sr ≤ 0 ∨ y.length < frameLength sr then Except.error SignalError.invalidSignal
  else Except.ok (reducer y sr)

/-- The value-level pipeline of `enhance_audio` (lines 51-80 of
src/app.py): normalise the decoded samples, apply the (abstracted) noise
reducer, convert back to 16-bit integers, and build the cleaned sound with
`sample_width=2`, `channels=1` and the frame rate of the input, exactly as
the `AudioSegment` constructor call on lines 75-80 does. -/
def enhanceBuffer (reducer : List ℚ → Int → List ℚ) (s : Sound) : Sound :=
  { samples := toInt16Code
      (reducer (normalizeCode (samplesForReduction s) s.sample_width) s.frame_rate)
    frame_rate := s.frame_rate
    sample_width := 2
    channels := 1 }

/-- One invocation of `enhance_audio` with the failure points of its
external collaborators made explicit: `decoded` is the result of
`AudioSegment.from_file` (`none` when it raised), and `exportOk` says
whether the final `export` call succeeded. -/
structure RunInput where
  decoded : Option Sound
  exportOk : Bool

/-- The control flow of `enhance_audio` (lines 48-85 of src/app.py): the
whole body runs inside `try/except Exception`, so every internal failure is
caught and turned into the return value `False`; `True` is returned only
after the export call at the end of the `try` block has completed.  The
result pairs the returned boolean with whether the output artifact was
written. -/
def enhance_audio_run (reducer : List ℚ → Int → List ℚ) (inp : RunInput) :
    Bool × Bool :=
  match inp.decoded with
  | none => (false, false)
  | some s =>
      match reduceNoiseM reducer
          (normalizeCode (samplesForReduction s) s.sample_width) s.frame_rate with
      | Except.error _ => (false, false)
      | Except.ok _ => if inp.exportOk then (true, true) else (false, false)

/-- A concrete 2-channel sound used by the concrete instantiations below:
two frames of interleaved stereo samples. -/
def stereoExample : Sound :=
  { samples := [0, 1000, 0, 1000], frame_rate := 44100,
    sample_width := 2, channels := 2 }

/-! Helper lemmas about truncation, wraparound and peak normalisation. -/

theorem truncQ_intCast (n : Int) : truncQ (n : ℚ) = n := by
  simp [truncQ, Rat.num_intCast, Rat.den_intCast]

theorem truncQ_eq_floor {q : ℚ} (h : 0 ≤ q) : truncQ q = ⌊q⌋ := by
  rw [truncQ, Rat.floor_def]
  exact Int.tdiv_eq_ediv (Rat.num_nonneg.mpr h) (Int.ofNat_nonneg _)

theorem truncQ_neg (q : ℚ) : truncQ (-q) = -truncQ q := by
  simp [truncQ, Rat.num_neg, Rat.neg_den, Int.neg_tdiv]

theorem truncQ_bounds {q : ℚ} (h1 : -32768 ≤ q) (h2 : q < 32768) :
    -32768 ≤ truncQ q ∧ truncQ q ≤ 32767 := by
  rcases le_or_lt 0 q with hq | hq
  · rw [truncQ_eq_floor hq]
    have hfl : (0 : Int) ≤ ⌊q⌋ := Int.floor_nonneg.mpr hq
    have hlt : ⌊q⌋ < 32768 := by
      rw [Int.floor_lt]
      push_cast
      exact h2
    omega
  · have hneg : truncQ q = -truncQ (-q) := by rw [truncQ_neg, neg_neg]
    rw [hneg, truncQ_eq_floor (by linarith : (0 : ℚ) ≤ -q)]
    have h0 : (0 : Int) ≤ ⌊-q⌋ := Int.floor_nonneg.mpr (by linarith)
    have hle : ⌊-q⌋ ≤ 32768 := by
      calc ⌊-q⌋ ≤ ⌊(32768 : ℚ)⌋ := Int.floor_le_floor (by linarith)
        _ = 32768 := by norm_num
    omega

theorem wrap16_eq_self {z : Int} (h1 : -32768 ≤ z) (h2 : z ≤ 32767) :
    wrap16 z = z := by
  have hmod : (z + 32768) % 65536 = z + 32768 :=
    Int.emod_eq_of_lt (by omega) (by omega)
  rw [wrap16, hmod]
  omega

theorem truncQ_clamp16 {q : ℚ} (h1 : -32768 ≤ q) (h2 : q < 32768) :
    truncQ (clampQ (-32768) 32767 q) = truncQ q := by
  rcases le_or_lt q 32767 with hq | hq
  · rw [clampQ, min_eq_right hq, max_eq_right h1]
  · have hc : clampQ (-32768) 32767 q = 32767 := by
      rw [clampQ, min_eq_left (le_of_lt hq)]
      exact max_eq_right (by norm_num)
    have hfq : truncQ q = 32767 := by
      rw [truncQ_eq_floor (by linarith)]
      rw [Int.floor_eq_iff]
      constructor <;> push_cast <;> linarith
    have hf32 : truncQ (32767 : ℚ) = 32767 := by
      have h := truncQ_intCast 32767
      push_cast at h
      exact h
    rw [hc, hf32, hfq]

theorem le_foldl_maxAbs (xs : List ℚ) :
    ∀ init : ℚ, init ≤ xs.foldl (fun m x => max m |x|) init := by
  induction xs with
  | nil => intro init; simp
  | cons a t ih =>
    intro init
    simp only [List.foldl_cons]
    exact le_trans (le_max_left _ _) (ih (max init |a|))

theorem abs_le_foldl_maxAbs (xs : List ℚ) :
    ∀ init : ℚ, ∀ x ∈ xs, |x| ≤ xs.foldl (fun m x => max m |x|) init := by
  induction xs with
  | nil => intro init x hx; simp at hx
  | cons a t ih =>
    intro init x hx
    simp only [List.foldl_cons]
    rcases List.mem_cons.mp hx with rfl | hx
    · exact le_trans (le_max_right _ _) (le_foldl_maxAbs t (max init |x|))
    · exact ih (max init |a|) x hx

theorem maxAbs_nonneg {a : ℚ} {t : List ℚ} {m : ℚ}
    (hm : maxAbs (a :: t) = some m) : 0 ≤ m := by
  have hv : m = t.foldl (fun v x => max v |x|) |a| :=
    (Option.some.inj hm).symm
  exact hv ▸ le_trans (abs_nonneg a) (le_foldl_maxAbs t |a|)

theorem abs_le_maxAbs {a x : ℚ} {t : List ℚ} {m : ℚ}
    (hm : maxAbs (a :: t) = some m) (hx : x ∈ a :: t) : |x| ≤ m := by
  have hv : m = t.foldl (fun v y => max v |y|) |a| :=
    (Option.some.inj hm).symm
  subst hv
  rcases List.mem_cons.mp hx with rfl | hx
  · exact le_foldl_maxAbs t |x|
  · exact abs_le_foldl_maxAbs t |a| x hx

theorem everyOther_eq_firstChannelSpec (xs : List Int) :
    everyOther xs = firstChannelSpec 2 xs := by
  have key : ∀ n (ys : List Int), ys.length ≤ n →
      everyOther ys = firstChannelSpec 2 ys := by
    intro n
    induction n with
    | zero =>
      intro ys hy
      have hnil : ys = [] := List.length_eq_zero.mp (Nat.le_zero.mp hy)
      subst hnil
      simp [everyOther, firstChannelSpec]
    | succ n ih =>
      intro ys hy
      rcases ys with _ | ⟨a, _ | ⟨b, rest⟩⟩
      · simp [everyOther, firstChannelSpec]
      · simp [everyOther, firstChannelSpec]
      · have hr : rest.length ≤ n := by
          simp only [List.length_cons] at hy
          omega
        simp only [everyOther, firstChannelSpec, List.drop_succ_cons, List.drop_zero]
        exact congrArg (a :: ·) (ih rest hr)
  exact key xs.length xs le_rfl

/-! Claim C1. -/

/-- Claim C1, counterexample: for a buffer of sample width 1 byte — neither
16-bit nor 32-bit — the normalisation step of `enhance_audio` does not fail;
the raw integer sample 100 is passed through to the noise reducer completely
unscaled, exactly what the spec contract (`toFloatSpec`, which rejects the
width with `UnsupportedBitDepthError`) forbids. -/
theorem normalizeCode_width1_passthrough_cex :
    normalizeCode [100] 1 = [((100 : Int) : ℚ)] ∧
      toFloatSpec [100] 1 = Except.error NormError.unsupportedBitDepth := by
  constructor
  · simp [normalizeCode]
  · simp [toFloatSpec]

/-- Claim C1, corrected: for every integer sample buffer whose width is
neither 2 nor 4 bytes, the normalisation step raises no error and performs no
scaling — the raw integer samples are passed through to the noise reducer
unchanged, merely cast to float. -/
theorem normalizeCode_unsupported_width_passes_raw
    (samples : List Int) (w : Nat) (h2 : w ≠ 2) (h4 : w ≠ 4) :
    normalizeCode samples w = samples.map (fun s => (s : ℚ)) := by
  simp [normalizeCode, h2, h4]

/-- Claim C1, witness for the corrected statement at width 1. -/
theorem normalizeCode_unsupported_width_passes_raw_witness :
    normalizeCode [7] 1 = [((7 : Int) : ℚ)] := by
  have h := normalizeCode_unsupported_width_passes_raw [7] 1
    (by decide) (by decide)
  simpa using h

/-! Claim C2. -/

/-- Claim C2, counterexample: at the full-scale float sample 1.0 the
conversion back to integers in the code wraps around — `1.0 * 32768 = 32768` is cast to
the 16-bit value -32768 — whereas the clamping conversion the claim
describes would produce 32767.  The code contains no clamp, so a positive
sample becomes the most negative output. -/
theorem toInt16Code_wraps_at_full_scale_cex :
    toInt16Code [(1 : ℚ)] = [(-32768 : Int)] ∧
      toInt16Spec [(1 : ℚ)] = [(32767 : Int)] ∧
      toInt16Code [(1 : ℚ)] ≠ toInt16Spec [(1 : ℚ)] := by
  have harg : (1 : ℚ) * 32768 = ((32768 : Int) : ℚ) := by norm_num
  have hcode : toInt16Code [(1 : ℚ)] = [(-32768 : Int)] := by
    simp only [toInt16Code, List.map_cons, List.map_nil, harg, truncQ_intCast]
    decide
  have hspec : toInt16Spec [(1 : ℚ)] = [(32767 : Int)] := by
    simp only [toInt16Spec, List.map_cons, List.map_nil]
    have hcl : clampQ (-32768) 32767 ((1 : ℚ) * 32768) = ((32767 : Int) : ℚ) := by
      rw [clampQ, min_eq_left (by norm_num), max_eq_right (by norm_num)]
      norm_num
    rw [hcl, truncQ_intCast]
  refine ⟨hcode, hspec, ?_⟩
  rw [hcode, hspec]
  decide

/-- Claim C2, corrected: the conversion back to integers scales by 32768 and
truncates with no clamping at all; it agrees with the clamping conversion of
the spec exactly on float samples in the interval from -1 inclusive to 1
exclusive, where no wraparound can occur, and wraps around outside it. -/
theorem toInt16Code_eq_clamped_on_unit_range (xs : List ℚ)
    (h : ∀ x ∈ xs, -1 ≤ x ∧ x < 1) :
    toInt16Code xs = toInt16Spec xs := by
  unfold toInt16Code toInt16Spec
  refine List.map_congr_left ?_
  intro x hx
  obtain ⟨hx1, hx2⟩ := h x hx
  have hq1 : -32768 ≤ x * 32768 := by nlinarith
  have hq2 : x * 32768 < 32768 := by nlinarith
  rw [truncQ_clamp16 hq1 hq2]
  obtain ⟨hb1, hb2⟩ := truncQ_bounds hq1 hq2
  exact wrap16_eq_self hb1 hb2

/-- Claim C2, witness for the corrected statement on a concrete in-range
buffer. -/
theorem toInt16Code_eq_clamped_on_unit_range_witness :
    toInt16Code [(0 : ℚ), -1] = toInt16Spec [(0 : ℚ), -1] :=
  toInt16Code_eq_clamped_on_unit_range [0, -1] (by
    intro x hx
    rcases List.mem_cons.mp hx with rfl | hx
    · norm_num
    · rcases List.mem_cons.mp hx with rfl | hx
      · norm_num
      · simp at hx)

/-! Claim C3. -/

/-- Claim C3, counterexample: the round trip fails at bit depth 32.  The
sample 65536 is representable at 32 bits, `to_float` divides it by
2147483648, but the conversion back is fixed at the 16-bit scale 32768, so
the round trip returns 1, not 65536. -/
theorem roundTrip_32bit_fails_cex :
    toInt16Code (normalizeCode [65536] 4) = [(1 : Int)] ∧ (1 : Int) ≠ 65536 := by
  constructor
  · have hn : normalizeCode [65536] 4 = [((65536 : Int) : ℚ) / 2147483648] := by
      simp [normalizeCode]
    rw [hn]
    simp only [toInt16Code, List.map_cons, List.map_nil]
    have harg : ((65536 : Int) : ℚ) / 2147483648 * 32768 = ((1 : Int) : ℚ) := by
      push_cast
      norm_num
    rw [harg, truncQ_intCast]
    decide
  · decide

/-- Round trip of a single 16-bit sample through the float domain. -/
theorem roundTrip16_point {x : Int} (h1 : -32768 ≤ x) (h2 : x ≤ 32767) :
    wrap16 (truncQ ((x : ℚ) / 32768 * 32768)) = x := by
  have hcancel : (x : ℚ) / 32768 * 32768 = ((x : Int) : ℚ) :=
    div_mul_cancel₀ _ (by norm_num)
  rw [hcancel, truncQ_intCast]
  exact wrap16_eq_self h1 h2

/-- Claim C3, corrected: the round trip `to_int (to_float x) = x` holds for
every buffer of integers representable in 16 bits (bit depth 16); for bit
depth 32 it fails because the inverse conversion is fixed at the 16-bit
scale. -/
theorem roundTrip_16bit (xs : List Int)
    (h : ∀ x ∈ xs, -32768 ≤ x ∧ x ≤ 32767) :
    toInt16Code (normalizeCode xs 2) = xs := by
  induction xs with
  | nil => simp [normalizeCode, toInt16Code]
  | cons a t ih =>
    have ha := h a (List.mem_cons_self a t)
    have ht : ∀ x ∈ t, -32768 ≤ x ∧ x ≤ 32767 :=
      fun x hx => h x (List.mem_cons_of_mem a hx)
    have hstep : toInt16Code (normalizeCode (a :: t) 2)
        = wrap16 (truncQ ((a : ℚ) / 32768 * 32768))
            :: toInt16Code (normalizeCode t 2) := by
      simp [normalizeCode, toInt16Code]
    rw [hstep, roundTrip16_point ha.1 ha.2, ih ht]

/-- Claim C3, witness for the corrected statement on a concrete 16-bit
buffer. -/
theorem roundTrip_16bit_witness :
    toInt16Code (normalizeCode [5, -5, 32767, -32768] 2) = [5, -5, 32767, -32768] :=
  roundTrip_16bit [5, -5, 32767, -32768] (by
    intro x hx
    rcases List.mem_cons.mp hx with rfl | hx
    · norm_num
    · rcases List.mem_cons.mp hx with rfl | hx
      · norm_num
      · rcases List.mem_cons.mp hx with rfl | hx
        · norm_num
        · rcases List.mem_cons.mp hx with rfl | hx
          · norm_num
          · simp at hx)

/-! Claim C4. -/

/-- Claim C4: for every zero-length or single-sample input signal — and more
generally any signal shorter than one analysis frame, or any sample rate
that is not positive — the noise-reduction stage fails with
`InvalidSignalError`: it returns the error value of a total function, so it
neither crashes nor hangs.  The input validation of the reducer is modelled
from the spec, the noisereduce library being external to this repository. -/
theorem reduceNoiseM_degenerate_invalid (reducer : List ℚ → Int → List ℚ)
    (y : List ℚ) (sr : Int)
    (h : y.length ≤ 1 ∨ y.length < frameLength sr ∨ sr ≤ 0) :
    reduceNoiseM reducer y sr = Except.error SignalError.invalidSignal := by
  have hfl : 2 ≤ frameLength sr := le_max_left _ _
  have hcond : sr ≤ 0 ∨ y.length < frameLength sr := by
    rcases h with h | h | h
    · exact Or.inr (by omega)
    · exact Or.inr h
    · exact Or.inl h
  unfold reduceNoiseM
  rw [if_pos hcond]

/-- Claim C4, witness: the empty signal at 44100 Hz fails with
`InvalidSignalError`. -/
theorem reduceNoiseM_degenerate_invalid_witness :
    reduceNoiseM (fun y _ => y) [] 44100
        = Except.error SignalError.invalidSignal :=
  reduceNoiseM_degenerate_invalid (fun y _ => y) [] 44100 (Or.inl (by simp))

/-! Claim C5. -/

/-- Claim C5, counterexample: for the 2-channel sound `stereoExample` the
buffer that `enhance_audio` hands to the normaliser and the noise reducer is
the raw interleaved sample list — it is neither the first channel nor the
per-frame channel average, so no mono reduction happens on the
noise-reduction path. -/
theorem stereo_reaches_reducer_interleaved_cex :
    1 < stereoExample.channels ∧
    samplesForReduction stereoExample ≠
        firstChannelSpec stereoExample.channels stereoExample.samples ∧
    (samplesForReduction stereoExample).map (fun i => (i : ℚ)) ≠
        avgChannelsSpec stereoExample.channels stereoExample.samples := by
  have hfc : firstChannelSpec 2 [0, 1000, 0, 1000] = [0, 0] := by
    simp [firstChannelSpec]
  have hav : avgChannelsSpec 2 [0, 1000, 0, 1000] = [500, 500] := by
    simp [avgChannelsSpec]
    norm_num
  refine ⟨by decide, ?_, ?_⟩
  · intro hEq
    simp only [samplesForReduction, stereoExample] at hEq
    rw [hfc] at hEq
    exact absurd hEq (by decide)
  · intro hEq
    simp only [samplesForReduction, stereoExample] at hEq
    rw [hav] at hEq
    simp at hEq

/-- Claim C5, corrected: the noise-reduction path performs no channel
reduction at all (see the counterexample); only the spectrogram loader
reduces to one channel, and it does so by selecting the first channel, and
only when the decoded sound has exactly two channels. -/
theorem monoSamples_stereo_first_channel (s : Sound) (h : s.channels = 2) :
    monoSamples s = firstChannelSpec 2 s.samples := by
  unfold monoSamples
  rw [if_pos h]
  exact everyOther_eq_firstChannelSpec s.samples

/-- Claim C5, witness for the corrected statement at the concrete stereo
sound. -/
theorem monoSamples_stereo_first_channel_witness :
    monoSamples stereoExample = firstChannelSpec 2 stereoExample.samples :=
  monoSamples_stereo_first_channel stereoExample rfl

/-! Claim C6. -/

/-- Claim C6, counterexample: for a signal with sample rate 16000 the zone
table does not partition the interval up to the Nyquist frequency 8000 —
its last bound is the constant 22050. -/
theorem zones_not_nyquist_at_16000_cex :
    coversZeroToNyquist zones 16000 = false := by decide

/-- Claim C6, corrected: the four configured zones are adjacent with no
gaps and no overlaps, the first low bound is 0 and the last high bound is
the constant 22050; they partition the interval from 0 to the Nyquist
frequency exactly for the sample rates whose half equals 22050 (44100 Hz),
not for every input signal. -/
theorem zones_fixed_partition :
    zonesChain zones = true ∧
    zones.head?.map FrequencyZone.low = some 0 ∧
    zones.getLast?.map FrequencyZone.high = some 22050 ∧
    ∀ sample_rate : Nat,
      coversZeroToNyquist zones sample_rate = true ↔ sample_rate / 2 = 22050 := by
  refine ⟨by decide, by decide, by decide, ?_⟩
  intro sr
  have hev : coversZeroToNyquist zones sr = (22050 == sr / 2) := rfl
  rw [hev]
  simp only [beq_iff_eq]
  omega

/-! Claim C7. -/

/-- Claim C7: determinism of the embedded pipeline and of the spectrogram
preprocessing — with the external spectral-gating computation fixed (it is a
function of the float signal and the sample rate), two runs on equal inputs
produce equal outputs, bit-identically; the embedding is purely functional,
so no run mutates its input. -/
theorem pipeline_deterministic (reducer : List ℚ → Int → List ℚ)
    (s₁ s₂ : Sound) (h : s₁ = s₂) :
    enhanceBuffer reducer s₁ = enhanceBuffer reducer s₂ ∧
      spectrogramSamples s₁ = spectrogramSamples s₂ := by
  subst h
  exact ⟨rfl, rfl⟩

/-- Claim C7, witness at a concrete sound and reducer. -/
theorem pipeline_deterministic_witness :
    enhanceBuffer (fun y _ => y) stereoExample
        = enhanceBuffer (fun y _ => y) stereoExample ∧
      spectrogramSamples stereoExample = spectrogramSamples stereoExample :=
  pipeline_deterministic (fun y _ => y) stereoExample stereoExample rfl

/-! Claim C8. -/

/-- Claim C8, counterexample: the peak normalisation is not total for every
input sample buffer — on the empty buffer the `np.max` call raises
`ValueError` on a zero-size array before the division guard is ever
reached, modelled as the error value `none`. -/
theorem normalizePeak_empty_raises_cex :
    maxAbs ([] : List ℚ) = none ∧ normalizePeak ([] : List ℚ) = none :=
  ⟨rfl, rfl⟩

/-- Claim C8, corrected: for every nonempty input sample buffer the peak
normalisation is total — when the maximum absolute sample value is 0 the
division is skipped and the buffer passes through unchanged, so no division
by zero occurs — and the produced buffer has each sample between -1 and 1;
on the empty buffer the maximum itself raises. -/
theorem normalizePeak_nonempty_total_and_bounded (xs : List ℚ)
    (h : xs ≠ []) :
    (maxAbs xs = some 0 → normalizePeak xs = some xs) ∧
      ∃ ys, normalizePeak xs = some ys ∧ ∀ y ∈ ys, -1 ≤ y ∧ y ≤ 1 := by
  obtain ⟨a, t, rfl⟩ := List.exists_cons_of_ne_nil h
  have hMA : maxAbs (a :: t) = some (t.foldl (fun v x => max v |x|) |a|) := rfl
  set m := t.foldl (fun v x => max v |x|) |a| with hmdef
  have h0 : 0 ≤ m := maxAbs_nonneg hMA
  have hmem : ∀ x ∈ a :: t, |x| ≤ m := fun x hx => abs_le_maxAbs hMA hx
  constructor
  · intro hz
    have hm0 : m = 0 := Option.some.inj (hMA ▸ hz)
    unfold normalizePeak
    rw [hMA, hm0]
    simp
  · refine ⟨if 0 < m then (a :: t).map (fun x => x / m) else a :: t, ?_, ?_⟩
    · unfold normalizePeak
      rw [hMA]
    · intro y hy
      by_cases hpos : 0 < m
      · rw [if_pos hpos] at hy
        obtain ⟨x, hx, rfl⟩ := List.mem_map.mp hy
        have habs : |x| ≤ m := hmem x hx
        have hdiv : |x / m| ≤ 1 := by
          rw [abs_div, abs_of_pos hpos]
          exact (div_le_one hpos).mpr habs
        exact abs_le.mp hdiv
      · rw [if_neg hpos] at hy
        have hm0 : m = 0 := le_antisymm (not_lt.mp hpos) h0
        have hy0 : |y| ≤ 0 := hm0 ▸ hmem y hy
        have hzero : y = 0 := abs_nonpos_iff.mp hy0
        exact hzero ▸ ⟨by norm_num, by norm_num⟩

/-- Claim C8, witness for the corrected statement: the nonempty all-zero
buffer passes through unchanged and its sample is within bounds. -/
theorem normalizePeak_nonempty_total_and_bounded_witness :
    normalizePeak [(0 : ℚ)] = some [(0 : ℚ)] ∧ (-1 ≤ (0 : ℚ) ∧ (0 : ℚ) ≤ 1) := by
  have h := normalizePeak_nonempty_total_and_bounded [(0 : ℚ)] (by simp)
  have h0 : maxAbs [(0 : ℚ)] = some 0 := by simp [maxAbs]
  have h1 := h.1 h0
  obtain ⟨ys, hys, hb⟩ := h.2
  have hEq : ys = [(0 : ℚ)] := by
    rw [h1] at hys
    exact (Option.some.inj hys).symm
  exact ⟨h1, hb 0 (by rw [hEq]; exact List.mem_singleton.mpr rfl)⟩

/-! Claim C9. -/

/-- Claim C9: whatever sample width or channel count the decoded input has,
the cleaned sound that `enhance_audio` builds for the encoder always has
sample width 2 (16-bit), one channel, and the frame rate of the decoded
input — these fields are set literally in the `AudioSegment` constructor
call. -/
theorem enhanceBuffer_output_format (reducer : List ℚ → Int → List ℚ)
    (s : Sound) :
    (enhanceBuffer reducer s).sample_width = 2 ∧
      (enhanceBuffer reducer s).channels = 1 ∧
      (enhanceBuffer reducer s).frame_rate = s.frame_rate :=
  ⟨rfl, rfl, rfl⟩

/-! Claim C10. -/

/-- Claim C10: `enhance_audio` never propagates an exception — its body is a
total function into a boolean — and it returns `True` exactly when the
denoised output has been exported; every internal failure (decode error,
invalid signal, export error) yields `False` with no output artifact
written. -/
theorem enhance_audio_run_true_iff_exported (reducer : List ℚ → Int → List ℚ)
    (inp : RunInput) :
    ((enhance_audio_run reducer inp).1 = true
      ↔ (enhance_audio_run reducer inp).2 = true) := by
  rcases inp with ⟨d, e⟩
  cases d with
  | none => simp [enhance_audio_run]
  | some s =>
    cases hr : reduceNoiseM reducer
        (normalizeCode (samplesForReduction s) s.sample_width) s.frame_rate with
    | error err => simp [enhance_audio_run, hr]
    | ok v => cases e <;> simp [enhance_audio_run, hr]

end NoiseApp
